import Mathlib

/-!
# Verification of the `conf-vst` audio engines

Shallow embedding of the two Rust plugins in this repository:

* `src/synth/src/lib.rs` — the Tone Engine (`DevFestSynth`): a monophonic
  phase-accumulating sine oscillator with MIDI note routing, an envelope
  smoother and a smoothed gain parameter.
* `src/noise_generator/src/lib.rs` — the Noise Engine: per-sample uniform
  random amplitude scaled by a smoothed gain.

Modelling conventions:

* `f32` sample values, phases and parameters are modelled as exact rationals
  (`ℚ`).  Rounding is ignored; every claim settled here is about control flow,
  state updates and order relations that hold for the exact arithmetic the
  source expresses.  Note that `ℚ` division totalizes `x / 0 = 0`, which does
  NOT match IEEE `f32`; the one claim that hinges on division by a zero sample
  rate is settled against a dedicated IEEE-style value model (`F32`) below.
* The library transcendentals called by the source — `sin`, nih_plug's
  `util::db_to_gain_fast` and `util::midi_note_to_freq` — are irrational-valued
  and live outside this repository.  They are abstracted as the fields of an
  `AudioPrims` bundle, and every theorem quantifies over the bundle (so the
  results hold for whatever values the library computes).
* The `rand::random::<f32>()` stream of the Noise Engine is modelled as an
  explicit sequence `rng : ℕ → ℚ` of draws, consumed in the order the source
  calls `random()` (row-major: sample-by-sample, channel-by-channel).
* The host's event queue (`context.next_event()`) is modelled as a list; a
  call to `next_event` pops the head.
-/

/-- The external numeric primitives called by the source but defined outside
this repository (the Rust standard library and nih_plug's `util` module):
`sin` stands for `x ↦ (x * TAU).sin()` applied to the phase, `dbToGain` for
`util::db_to_gain_fast`, `midiToFreq` for `util::midi_note_to_freq`.  All
theorems are parametric in this bundle. -/
structure AudioPrims where
  sin : ℚ → ℚ
  dbToGain : ℚ → ℚ
  midiToFreq : ℕ → ℚ

/-- Modelled from the spec: nih_plug's `Smoother<f32>` (library code, not under
`src/`).  Spec §3/§4.1: it owns a current value and a target; `set_target`
re-arms interpolation from the current value toward the new target over a
style-defined duration (here `durationMs`, the `Linear(ms)` constant);
`reset(v)` hard-resets current = target = v, discarding in-flight
interpolation; `next()` advances one sample tick and returns the new current
value, idempotently returning `target` once converged. -/
structure Smoother where
  durationMs : ℚ
  current : ℚ
  target : ℚ
  stepsLeft : ℕ
deriving DecidableEq

/-- Modelled from the spec: a converged smoother at an initial value
(`Smoother::new` / `with_smoother` with a default parameter value). -/
def Smoother.new (durationMs v : ℚ) : Smoother :=
  { durationMs := durationMs, current := v, target := v, stepsLeft := 0 }

/-- Modelled from the spec: `set_target(sample_rate, target)` re-arms the
interpolation toward `target` over the smoother's duration at the given
sample rate, leaving the current value where it is. -/
def Smoother.setTarget (sm : Smoother) (sampleRate target : ℚ) : Smoother :=
  { sm with
    target := target
    stepsLeft := (max 1 ⌈sampleRate * sm.durationMs / 1000⌉).toNat }

/-- Modelled from the spec: `next()` advances the linear interpolation by one
sample tick and returns the new current value; after convergence it returns
the target unchanged. -/
def Smoother.next (sm : Smoother) : ℚ × Smoother :=
  match sm.stepsLeft with
  | 0 => (sm.target, { sm with current := sm.target })
  | 1 => (sm.target, { sm with current := sm.target, stepsLeft := 0 })
  | n + 2 =>
      let c := sm.current + (sm.target - sm.current) / (n + 2)
      (c, { sm with current := c, stepsLeft := n + 1 })

/-- Modelled from the spec: `reset(v)` forces current = target = v
immediately, discarding in-flight interpolation. -/
def Smoother.reset (sm : Smoother) (v : ℚ) : Smoother :=
  { sm with current := v, target := v, stepsLeft := 0 }

/-- State of the Tone Engine's `DevFestSynth` (src/synth/src/lib.rs), with the
pieces of `DevFestSynthParams` the processing loop reads: `gainParam` is
`params.gain.smoothed`, `freqParam` is `params.frequency.smoothed`, `useMidi`
is `params.use_midi.value()` (a plain bool, never written by `process`). -/
structure DevFestSynth where
  sampleRate : ℚ
  phase : ℚ
  midiNoteId : ℕ
  midiNoteFreq : ℚ
  midiNoteGain : Smoother
  gainParam : Smoother
  freqParam : Smoother
  useMidi : Bool
deriving DecidableEq

/-- The `Default` impls: `sample_rate = 1.0`, `phase = 0.0`,
`midi_note_id = 0`, `midi_note_freq = 1.0`, `midi_note_gain` a fresh
`Smoother::new(Linear(5.0))`, gain parameter defaulting to −10 dB with a
`Linear(3.0)` smoother, frequency parameter defaulting to 420 Hz with a
`Linear(10.0)` smoother, `use_midi` defaulting to true. -/
def defaultSynth : DevFestSynth :=
  { sampleRate := 1
    phase := 0
    midiNoteId := 0
    midiNoteFreq := 1
    midiNoteGain := Smoother.new 5 0
    gainParam := Smoother.new 3 (-10)
    freqParam := Smoother.new 10 420
    useMidi := true }

/-- The note events of nih_plug's `NoteEvent` that `process` matches on, each
carrying its `timing()` sample offset; `other` stands for every other event
kind (the `_ => ()` arm). -/
inductive NoteEvent where
  | noteOn (timing : ℕ) (note : ℕ) (velocity : ℚ)
  | noteOff (timing : ℕ) (note : ℕ)
  | polyPressure (timing : ℕ) (note : ℕ) (pressure : ℚ)
  | other (timing : ℕ)
deriving DecidableEq

/-- `event.timing()`. -/
def NoteEvent.timing : NoteEvent → ℕ
  | .noteOn t _ _ => t
  | .noteOff t _ => t
  | .polyPressure t _ _ => t
  | .other t => t

/-- The `match event` in `DevFestSynth::process` (src/synth/src/lib.rs:148-163):
NoteOn unconditionally overwrites the note id, derives the frequency and
re-targets the envelope smoother at the velocity; NoteOff and PolyPressure are
guarded by `note == self.midi_note_id`; everything else is a no-op. -/
def applyEvent (P : AudioPrims) (st : DevFestSynth) (e : NoteEvent) :
    DevFestSynth :=
  match e with
  | .noteOn _ note velocity =>
      { st with
        midiNoteId := note
        midiNoteFreq := P.midiToFreq note
        midiNoteGain := st.midiNoteGain.setTarget st.sampleRate velocity }
  | .noteOff _ note =>
      if note = st.midiNoteId then
        { st with midiNoteGain := st.midiNoteGain.setTarget st.sampleRate 0 }
      else st
  | .polyPressure _ note pressure =>
      if note = st.midiNoteId then
        { st with
          midiNoteGain := st.midiNoteGain.setTarget st.sampleRate pressure }
      else st
  | .other _ => st

/-- `DevFestSynth::calculate_sin` (src/synth/src/lib.rs:72-81): reads the sine
of the current phase, then advances the phase by `frequency / sample_rate`
with a single conditional wrap.  (`ℚ` totalizes division: `x / 0 = 0`; the
IEEE behaviour at `sample_rate = 0` is modelled separately by `F32` below.) -/
def calculate_sin (P : AudioPrims) (st : DevFestSynth) (frequency : ℚ) :
    DevFestSynth × ℚ :=
  let phaseDelta := frequency / st.sampleRate
  let sine := P.sin st.phase
  let phase1 := st.phase + phaseDelta
  ({ st with phase := if 1 ≤ phase1 then phase1 - 1 else phase1 }, sine)

/-- `DevFestSynth::reset` (src/synth/src/lib.rs:124-129). -/
def reset (st : DevFestSynth) : DevFestSynth :=
  { st with
    phase := 0
    midiNoteId := 0
    midiNoteFreq := 1
    midiNoteGain := st.midiNoteGain.reset 0 }

/-- A concrete primitive bundle for closed evaluations (identity stand-ins;
no settled claim depends on the numeric values of the library functions). -/
def idPrims : AudioPrims :=
  { sin := fun q => q, dbToGain := fun q => q, midiToFreq := fun n => (n : ℚ) }

/-- A primitive bundle whose gain conversion is constantly 1, for closed
evaluations wanting a nonzero linear gain. -/
def onePrims : AudioPrims :=
  { sin := fun q => q, dbToGain := fun _ => 1, midiToFreq := fun n => (n : ℚ) }

/-- Result of the event-draining `while let` loop of `process`: the updated
synth state, the event now held in the `next_event` variable, the events still
queued in the context, and (instrumentation for the timing claims) the events
that were applied, in application order. -/
structure DrainResult where
  state : DevFestSynth
  nextEv : Option NoteEvent
  rest : List NoteEvent
  applied : List NoteEvent
deriving DecidableEq

/-- The `while let Some(event) = next_event` loop of `DevFestSynth::process`
(src/synth/src/lib.rs:140-166) at sample index `s`: as long as an event is
held and its timing is not after `s`, apply it and pop the next event from the
context queue; stop on the first event timed after `s` (leaving it held) or
when the queue is exhausted. -/
def drainEvents (P : AudioPrims) (s : ℕ) :
    DevFestSynth → Option NoteEvent → List NoteEvent → DrainResult
  | st, none, rest => ⟨st, none, rest, []⟩
  | st, some e, [] =>
      if s < e.timing then ⟨st, some e, [], []⟩
      else ⟨applyEvent P st e, none, [], [e]⟩
  | st, some e, e2 :: rest2 =>
      if s < e.timing then ⟨st, some e, e2 :: rest2, []⟩
      else
        let r := drainEvents P s (applyEvent P st e) (some e2) rest2
        ⟨r.state, r.nextEv, r.rest, e :: r.applied⟩

/-- Result of a whole processed block: final state, the event still held in
`next_event`, the events never popped from the context, the output buffer
(`rows.get s` = the channel values written at sample index `s`), and the
applied-event trace (`applied.get s` = the events applied at sample `s`). -/
structure ProcessResult where
  state : DevFestSynth
  nextEv : Option NoteEvent
  rest : List NoteEvent
  rows : List (List ℚ)
  applied : List (List NoteEvent)
deriving DecidableEq

/-- The `for (sample_id, channel_samples)` loop of `DevFestSynth::process`
(src/synth/src/lib.rs:137-177), processing `n` samples starting at sample
index `s` over `C` output channels.  Per sample: draw the smoothed gain; if
`use_midi`, drain due events, advance the oscillator at the active note's
frequency and scale by the envelope smoother; otherwise advance the
oscillator at the smoothed frequency parameter; then write
`sin * db_to_gain_fast(gain)` to every channel at that sample index. -/
def processLoop (P : AudioPrims) (C : ℕ) :
    DevFestSynth → Option NoteEvent → List NoteEvent → ℕ → ℕ → ProcessResult
  | st, ev, rest, _, 0 => ⟨st, ev, rest, [], []⟩
  | st, ev, rest, s, n + 1 =>
      let g := st.gainParam.next
      let st1 : DevFestSynth := { st with gainParam := g.2 }
      if st1.useMidi then
        let d := drainEvents P s st1 ev rest
        let c := calculate_sin P d.state d.state.midiNoteFreq
        let en := c.1.midiNoteGain.next
        let st2 : DevFestSynth := { c.1 with midiNoteGain := en.2 }
        let r := processLoop P C st2 d.nextEv d.rest (s + 1) n
        ⟨r.state, r.nextEv, r.rest,
         List.replicate C (c.2 * en.1 * P.dbToGain g.1) :: r.rows,
         d.applied :: r.applied⟩
      else
        let f := st1.freqParam.next
        let st2 : DevFestSynth := { st1 with freqParam := f.2 }
        let c := calculate_sin P st2 f.1
        let r := processLoop P C c.1 ev rest (s + 1) n
        ⟨r.state, r.nextEv, r.rest,
         List.replicate C (c.2 * P.dbToGain g.1) :: r.rows,
         [] :: r.applied⟩

/-- `DevFestSynth::process` over one block of `numSamples` samples and
`numChannels` output channels: `let mut next_event = context.next_event()`
pops the head of the context queue before the sample loop, then the loop
runs from sample index 0. -/
def process (P : AudioPrims) (st : DevFestSynth) (events : List NoteEvent)
    (numSamples numChannels : ℕ) : ProcessResult :=
  processLoop P numChannels st events.head? events.tail 0 numSamples

/-- State of the Noise Engine's plugin struct (src/noise_generator/src/lib.rs;
also named `DevFestSynth` in its own crate): the stored sample rate and the
smoothed gain parameter `params.gain.smoothed`. -/
structure NoiseState where
  sampleRate : ℚ
  gainParam : Smoother
deriving DecidableEq

/-- The `Default` impl of the Noise Engine: `sample_rate = 1.0` and the gain
parameter defaulting to −10 dB with a `Linear(3.0)` smoother. -/
def defaultNoise : NoiseState :=
  { sampleRate := 1, gainParam := Smoother.new 3 (-10) }

/-- One sample row of the Noise Engine's channel loop
(src/noise_generator/src/lib.rs:95-97): each channel `c` gets
`(random() - 0.5) * 2 * db_to_gain_fast(gain)` with its own fresh draw —
`rng (base + c)` is the next value of the random stream. -/
def noiseRow (P : AudioPrims) (rng : ℕ → ℚ) (base : ℕ) (g : ℚ) (C : ℕ) :
    List ℚ :=
  (List.range C).map (fun c => (rng (base + c) - 1/2) * 2 * P.dbToGain g)

/-- Result of a Noise Engine block: final state and output rows. -/
structure NoiseResult where
  state : NoiseState
  rows : List (List ℚ)
deriving DecidableEq

/-- The sample loop of the Noise Engine's `process`
(src/noise_generator/src/lib.rs:91-98): per sample draw the smoothed gain
once, then fill each channel with an independent random value mapped to
[-1,1) and scaled. -/
def noiseProcess (P : AudioPrims) (rng : ℕ → ℚ) :
    NoiseState → ℕ → ℕ → ℕ → NoiseResult
  | st, _, 0, _ => ⟨st, []⟩
  | st, s, n + 1, C =>
      let g := st.gainParam.next
      let st1 : NoiseState := { st with gainParam := g.2 }
      let r := noiseProcess P rng st1 (s + 1) n C
      ⟨r.state, noiseRow P rng (s * C) g.1 C :: r.rows⟩

/-- An IEEE-754-style value model for `f32`, used to settle the claim about a
zero sample rate, which the totalized `ℚ` division cannot express: a finite
value (exact, rounding ignored), the two infinities, or NaN.  Only the
operations the oscillator path performs are defined, with IEEE special-value
semantics: x/0 is ±∞ for finite nonzero x and NaN for 0/0; NaN propagates
through every operation; `sin` of an infinity or NaN is NaN; comparisons
with NaN are false. -/
inductive F32 where
  | fin (q : ℚ)
  | inf
  | neginf
  | nan
deriving DecidableEq

/-- IEEE `f32` division on the value model. -/
def F32.div : F32 → F32 → F32
  | .nan, _ => .nan
  | _, .nan => .nan
  | .fin a, .fin b =>
      if b = 0 then
        if a = 0 then .nan else if 0 < a then .inf else .neginf
      else .fin (a / b)
  | .fin _, .inf => .fin 0
  | .fin _, .neginf => .fin 0
  | .inf, .fin b => if 0 ≤ b then .inf else .neginf
  | .neginf, .fin b => if 0 ≤ b then .neginf else .inf
  | .inf, .inf => .nan
  | .inf, .neginf => .nan
  | .neginf, .inf => .nan
  | .neginf, .neginf => .nan

/-- IEEE `f32` addition on the value model. -/
def F32.add : F32 → F32 → F32
  | .nan, _ => .nan
  | _, .nan => .nan
  | .fin a, .fin b => .fin (a + b)
  | .fin _, .inf => .inf
  | .fin _, .neginf => .neginf
  | .inf, .fin _ => .inf
  | .neginf, .fin _ => .neginf
  | .inf, .inf => .inf
  | .neginf, .neginf => .neginf
  | .inf, .neginf => .nan
  | .neginf, .inf => .nan

/-- IEEE `f32` negation on the value model. -/
def F32.neg : F32 → F32
  | .fin a => .fin (-a)
  | .inf => .neginf
  | .neginf => .inf
  | .nan => .nan

/-- IEEE `f32` subtraction on the value model. -/
def F32.sub (a b : F32) : F32 := a.add b.neg

/-- IEEE `f32` multiplication on the value model. -/
def F32.mul : F32 → F32 → F32
  | .nan, _ => .nan
  | _, .nan => .nan
  | .fin a, .fin b => .fin (a * b)
  | .fin a, .inf => if a = 0 then .nan else if 0 < a then .inf else .neginf
  | .fin a, .neginf => if a = 0 then .nan else if 0 < a then .neginf else .inf
  | .inf, .fin b => if b = 0 then .nan else if 0 < b then .inf else .neginf
  | .neginf, .fin b => if b = 0 then .nan else if 0 < b then .neginf else .inf
  | .inf, .inf => .inf
  | .neginf, .neginf => .inf
  | .inf, .neginf => .neginf
  | .neginf, .inf => .neginf

/-- IEEE `f32` `>=` on the value model (false whenever NaN is involved). -/
def F32.ge : F32 → F32 → Bool
  | .nan, _ => false
  | _, .nan => false
  | .fin a, .fin b => decide (b ≤ a)
  | .inf, _ => true
  | .fin _, .inf => false
  | .fin _, .neginf => true
  | .neginf, .neginf => true
  | .neginf, _ => false

/-- `(x * TAU).sin()` on the value model: finite for finite input (the finite
value delegated to the abstracted library sine), NaN for ±∞ and NaN. -/
def F32.sinTau (P : AudioPrims) : F32 → F32
  | .fin q => .fin (P.sin q)
  | _ => .nan

/-- The mutable state `calculate_sin` touches, under the `f32` value model. -/
structure ToneF where
  sampleRate : F32
  phase : F32
deriving DecidableEq

/-- `DevFestSynth::calculate_sin` (src/synth/src/lib.rs:72-81) under the
IEEE-style `f32` value model, special values included: exactly the source's
`phase_delta = frequency / sample_rate`, sine of the old phase, then
`phase += phase_delta; if phase >= 1.0 { phase -= 1.0 }`. -/
def calculateSinF (P : AudioPrims) (st : ToneF) (frequency : F32) :
    ToneF × F32 :=
  let phaseDelta := frequency.div st.sampleRate
  let sine := F32.sinTau P st.phase
  let phase1 := st.phase.add phaseDelta
  ({ st with
     phase := if phase1.ge (.fin 1) then phase1.sub (.fin 1) else phase1 },
   sine)

/-- The Tone Engine's MIDI-mode per-sample output path under the `f32` value
model, specialized to a block with no events and constant envelope and gain
values (the envelope and gain smoothers emit finite values; the constants
stand for those): per sample, `calculate_sin(midi_note_freq) * envelope`
then `* db_to_gain_fast(gain)` as written to the channels.  Returns the final
oscillator state and the per-sample output values. -/
def runToneF (P : AudioPrims) (frequency env gain : F32) :
    ToneF → ℕ → ToneF × List F32
  | st, 0 => (st, [])
  | st, n + 1 =>
      let c := calculateSinF P st frequency
      let out := (c.2.mul env).mul gain
      let r := runToneF P frequency env gain c.1 n
      (r.1, out :: r.2)

/-! ## Helper lemmas -/

lemma calculate_sin_useMidi (P : AudioPrims) (st : DevFestSynth) (f : ℚ) :
    ((calculate_sin P st f).1).useMidi = st.useMidi := rfl

lemma applyEvent_useMidi (P : AudioPrims) (st : DevFestSynth) (e : NoteEvent) :
    (applyEvent P st e).useMidi = st.useMidi := by
  cases e <;> simp only [applyEvent] <;> (try split) <;> rfl

/-! ## Claims -/

/-- C1: Tone Engine note-event handling (the `match event` arm of `process`
in MIDI mode).  A NoteOn is always accepted: it overwrites the active note id
with `note`, sets the active frequency to `midi_note_to_freq(note)` and the
envelope smoother's target to the velocity, regardless of the previous state.
A NoteOff re-targets the envelope to 0 exactly when its note equals the
active note id, and is a no-op otherwise.  A PolyPressure re-targets the
envelope to the pressure exactly when its note equals the active note id, and
is a no-op otherwise.  Every other event kind leaves the state unchanged. -/
theorem C1_note_event_state_machine (P : AudioPrims) (st : DevFestSynth) :
    (∀ t note vel,
        (applyEvent P st (.noteOn t note vel)).midiNoteId = note ∧
        (applyEvent P st (.noteOn t note vel)).midiNoteFreq = P.midiToFreq note ∧
        (applyEvent P st (.noteOn t note vel)).midiNoteGain =
          st.midiNoteGain.setTarget st.sampleRate vel) ∧
    (∀ t, (applyEvent P st (.noteOff t st.midiNoteId)).midiNoteGain =
        st.midiNoteGain.setTarget st.sampleRate 0) ∧
    (∀ t note, note ≠ st.midiNoteId → applyEvent P st (.noteOff t note) = st) ∧
    (∀ t p, (applyEvent P st (.polyPressure t st.midiNoteId p)).midiNoteGain =
        st.midiNoteGain.setTarget st.sampleRate p) ∧
    (∀ t note p, note ≠ st.midiNoteId →
        applyEvent P st (.polyPressure t note p) = st) ∧
    (∀ t, applyEvent P st (.other t) = st) := by
  refine ⟨fun t note vel => ⟨rfl, rfl, rfl⟩, fun t => ?_, fun t note h => ?_,
    fun t p => ?_, fun t note p h => ?_, fun t => rfl⟩
  · simp [applyEvent]
  · simp [applyEvent, h]
  · simp [applyEvent]
  · simp [applyEvent, h]

/-- Witness for C1 at concrete inputs: a NoteOff and a PolyPressure for note
5 while note 3 is active are no-ops. -/
theorem C1_note_event_state_machine_witness :
    applyEvent idPrims { defaultSynth with midiNoteId := 3 } (.noteOff 0 5) =
      { defaultSynth with midiNoteId := 3 } ∧
    applyEvent idPrims { defaultSynth with midiNoteId := 3 }
        (.polyPressure 0 5 1) =
      { defaultSynth with midiNoteId := 3 } :=
  ⟨(C1_note_event_state_machine idPrims _).2.2.1 0 5 (by simp),
   (C1_note_event_state_machine idPrims _).2.2.2.2.1 0 5 1 (by simp)⟩

/-- C4 (counterexample to the claim as stated): the advance step does NOT
stay in [0,1) for every frequency and sample rate.  With sample rate 1
(the default), frequency 2 and phase 0, one step yields phase 1 ∉ [0,1):
the single conditional subtraction cannot wrap a phase delta ≥ 1. -/
theorem C4_phase_counterexample :
    (calculate_sin idPrims defaultSynth 2).1.phase = 1 ∧
    ¬ ((calculate_sin idPrims defaultSynth 2).1.phase < 1) := by
  norm_num [calculate_sin, defaultSynth, idPrims]

/-- C4 (amended): one advance step
(`phase += frequency/sample_rate; if phase >= 1.0 { phase -= 1.0 }`) started
from a phase in [0,1) produces a phase again in [0,1), provided the phase
delta `frequency / sample_rate` itself lies in [0,1). -/
theorem C4_phase_step (P : AudioPrims) (st : DevFestSynth) (frequency : ℚ)
    (h0 : 0 ≤ st.phase) (h1 : st.phase < 1)
    (hd0 : 0 ≤ frequency / st.sampleRate)
    (hd1 : frequency / st.sampleRate < 1) :
    0 ≤ (calculate_sin P st frequency).1.phase ∧
      (calculate_sin P st frequency).1.phase < 1 := by
  simp only [calculate_sin]
  split <;> constructor <;> linarith

/-- Witness for C4 at a concrete input: frequency 1/2 at sample rate 1 from
phase 0. -/
theorem C4_phase_step_witness :
    0 ≤ (calculate_sin idPrims defaultSynth (1/2)).1.phase ∧
      (calculate_sin idPrims defaultSynth (1/2)).1.phase < 1 :=
  C4_phase_step idPrims defaultSynth (1/2) (by norm_num [defaultSynth])
    (by norm_num [defaultSynth]) (by norm_num [defaultSynth])
    (by norm_num [defaultSynth])

/-- C5: the code does NOT guard the frequency-to-phase-delta division
against a zero sample rate.  Evaluating the MIDI output path under the IEEE
`f32` value model at sample rate 0, frequency 1, phase 0, over a block of 2
samples: the first step computes `phase_delta = 1/0 = +∞`, driving the phase
to +∞, and from the second sample on the output is `sin(∞) = NaN` — NaN
reaches the output samples, contradicting the claim (the spec's stated
intent); the claim is right about what the engine must do and the code omits
the guard. -/
theorem C5_zero_sample_rate_nan :
    (runToneF idPrims (.fin 1) (.fin 1) (.fin 1) ⟨.fin 0, .fin 0⟩ 2).2.get? 1
        = some F32.nan ∧
      (runToneF idPrims (.fin 1) (.fin 1) (.fin 1) ⟨.fin 0, .fin 0⟩ 2).1.phase
        = F32.inf := by
  norm_num [runToneF, calculateSinF, F32.div, F32.add, F32.sub, F32.neg,
    F32.mul, F32.ge, F32.sinTau, idPrims]

/-- C7: after `reset()`, the oscillator phase is 0, the active note id is 0,
and the envelope smoother is hard-reset: its current value and target are
both 0 with no interpolation steps left. -/
theorem C7_reset_postcondition (st : DevFestSynth) :
    (reset st).phase = 0 ∧ (reset st).midiNoteId = 0 ∧
    (reset st).midiNoteGain.current = 0 ∧
    (reset st).midiNoteGain.target = 0 ∧
    (reset st).midiNoteGain.stepsLeft = 0 := by
  simp [reset, Smoother.reset]

/-- C9 (counterexample to the claim as stated): after `reset()` the active
note id is 0, and a PolyPressure carrying MIDI note 0 with pressure 7/10
passes the `note == midi_note_id` guard, changing the envelope target from
0 to 7/10 — the sentinel is not distinct from real note 0. -/
theorem C9_sentinel_counterexample :
    (applyEvent idPrims (reset defaultSynth)
        (.polyPressure 0 0 (7/10))).midiNoteGain.target = 7/10 ∧
    (reset defaultSynth).midiNoteGain.target = 0 ∧ ((7 : ℚ)/10 ≠ 0) := by
  norm_num [applyEvent, reset, Smoother.reset, Smoother.setTarget,
    defaultSynth, Smoother.new]

/-- C9 (amended): the idle sentinel is NOT distinct from a real note.  After
`reset()` the active note id is 0, which collides with MIDI note 0: a
NoteOff or PolyPressure carrying note 0 passes the active-note guard, so
PolyPressure{0, p} sets the envelope target to p (an observable change
whenever p ≠ 0) and NoteOff{0} sets it to 0. -/
theorem C9_sentinel_collision (P : AudioPrims) (st : DevFestSynth) (t : ℕ)
    (p : ℚ) :
    (reset st).midiNoteId = 0 ∧
    (applyEvent P (reset st) (.polyPressure t 0 p)).midiNoteGain.target = p ∧
    (applyEvent P (reset st) (.noteOff t 0)).midiNoteGain.target = 0 := by
  simp [reset, applyEvent, Smoother.setTarget, Smoother.reset]

/-- C10: `reset()` touches only the oscillator phase, the active note id,
the active note frequency and the note envelope smoother; the stored sample
rate, the gain and frequency parameter smoothers, the use_midi flag — and
even the envelope smoother's own smoothing-style constant — are unchanged. -/
theorem C10_reset_frame (st : DevFestSynth) :
    (reset st).sampleRate = st.sampleRate ∧
    (reset st).gainParam = st.gainParam ∧
    (reset st).freqParam = st.freqParam ∧
    (reset st).useMidi = st.useMidi ∧
    (reset st).midiNoteGain.durationMs = st.midiNoteGain.durationMs := by
  simp [reset, Smoother.reset]

lemma processLoop_useMidi_false (P : AudioPrims) (C : ℕ) :
    ∀ (n s : ℕ) (st : DevFestSynth) (ev : Option NoteEvent)
      (rest : List NoteEvent), st.useMidi = false →
      (processLoop P C st ev rest s n).nextEv = ev ∧
      (processLoop P C st ev rest s n).rest = rest ∧
      (processLoop P C st ev rest s n).applied = List.replicate n []
  | 0, s, st, ev, rest, _ => ⟨rfl, rfl, rfl⟩
  | n + 1, s, st, ev, rest, h => by
      have ih := processLoop_useMidi_false P C n (s + 1)
      simp only [processLoop, h, Bool.false_eq_true, if_false]
      refine ⟨(ih _ ev rest ?_).1, (ih _ ev rest ?_).2.1, ?_⟩
      · rw [calculate_sin_useMidi]
      · rw [calculate_sin_useMidi]
      · rw [List.replicate_succ]
        refine congrArg (List.cons []) (ih _ ev rest ?_).2.2
        rw [calculate_sin_useMidi]

/-- C3 (counterexample to the claim as stated): with use_midi false and two
events queued, processing a one-sample block leaves the second event still
queued in the context — the event queue is NOT drained in manual-frequency
mode. -/
theorem C3_no_drain_counterexample :
    (process idPrims { defaultSynth with useMidi := false }
        [NoteEvent.noteOn 0 60 1, NoteEvent.noteOn 0 64 1] 1 1).rest ≠ [] := by
  norm_num [process, processLoop, defaultSynth, Smoother.next, Smoother.new,
    calculate_sin]

/-- C3 (amended): when use_midi is false the Tone Engine does not drain the
event queue.  Exactly one event — the head, fetched into `next_event` before
the sample loop — is popped from the context and never applied; every other
pending event remains queued across the block, and no event is applied at
any sample. -/
theorem C3_no_drain (P : AudioPrims) (st : DevFestSynth)
    (events : List NoteEvent) (n C : ℕ) (h : st.useMidi = false) :
    (process P st events n C).nextEv = events.head? ∧
    (process P st events n C).rest = events.tail ∧
    (process P st events n C).applied = List.replicate n [] :=
  processLoop_useMidi_false P C n 0 st events.head? events.tail h

/-- Witness for C3 at concrete inputs: one-sample block, two queued events,
use_midi false. -/
theorem C3_no_drain_witness :
    (process idPrims { defaultSynth with useMidi := false }
        [NoteEvent.noteOn 0 60 1, NoteEvent.noteOn 0 64 1] 1 1).rest =
      [NoteEvent.noteOn 0 64 1] := by
  have h := C3_no_drain idPrims { defaultSynth with useMidi := false }
    [NoteEvent.noteOn 0 60 1, NoteEvent.noteOn 0 64 1] 1 1 rfl
  simpa using h.2.1

lemma processLoop_rows_replicate (P : AudioPrims) (C : ℕ) :
    ∀ (n s : ℕ) (st : DevFestSynth) (ev : Option NoteEvent)
      (rest : List NoteEvent),
      ∀ row ∈ (processLoop P C st ev rest s n).rows,
        ∃ v, row = List.replicate C v
  | 0, s, st, ev, rest => by
      intro row hrow
      simp only [processLoop] at hrow
      exact absurd hrow (List.not_mem_nil row)
  | n + 1, s, st, ev, rest => by
      intro row hrow
      simp only [processLoop] at hrow
      split at hrow <;>
        rcases List.mem_cons.1 hrow with hq | hq
      · exact ⟨_, hq⟩
      · exact processLoop_rows_replicate P C n (s + 1) _ _ _ row hq
      · exact ⟨_, hq⟩
      · exact processLoop_rows_replicate P C n (s + 1) _ _ _ row hq

lemma noiseProcess_rows_get (P : AudioPrims) (rng : ℕ → ℚ) (C : ℕ) :
    ∀ (n s : ℕ) (st : NoiseState) (i : ℕ), i < n →
      ∃ g, (noiseProcess P rng st s n C).rows.get? i
          = some (noiseRow P rng ((s + i) * C) g C)
  | 0, s, st, i, hi => absurd hi (Nat.not_lt_zero i)
  | n + 1, s, st, 0, _ => by
      refine ⟨st.gainParam.next.1, ?_⟩
      simp only [processLoop, noiseProcess, List.get?_cons_zero, Nat.add_zero]
  | n + 1, s, st, i + 1, hi => by
      obtain ⟨g, hg⟩ := noiseProcess_rows_get P rng C n (s + 1)
        { st with gainParam := st.gainParam.next.2 } i (Nat.lt_of_succ_lt_succ hi)
      refine ⟨g, ?_⟩
      simp only [noiseProcess, List.get?_cons_succ]
      rw [hg, Nat.add_assoc, Nat.add_comm 1 i]

/-- C2 (counterexample to the claim as stated): the Noise Engine does NOT
write one identical value per sample index to all channels — it draws a fresh
random value per channel.  With the random stream 0, 1/2, … and a linear gain
of 1, one sample over two channels produces [-1, 0]: the two channels differ. -/
theorem C2_noise_channels_counterexample :
    (noiseProcess onePrims (fun k => (k : ℚ)/2) defaultNoise 0 1 2).rows
        = [[-1, 0]] ∧ ((-1 : ℚ) ≠ 0) := by
  norm_num [noiseProcess, noiseRow, defaultNoise, Smoother.new, Smoother.next,
    onePrims, List.range_succ]

/-- C2 (amended): the Tone Engine writes one mono value fanned out
identically to all channels at every sample index; the Noise Engine instead
draws one fresh uniform random value per channel per sample (draw
`s*C + c` of the stream for sample `s`, channel `c`), so its channels
generally differ. -/
theorem C2_channel_fanout :
    (∀ (P : AudioPrims) (st : DevFestSynth) (events : List NoteEvent)
       (n C : ℕ), ∀ row ∈ (process P st events n C).rows,
       ∀ (i j : ℕ) (hi : i < row.length) (hj : j < row.length),
         row.get ⟨i, hi⟩ = row.get ⟨j, hj⟩) ∧
    (∀ (P : AudioPrims) (rng : ℕ → ℚ) (st : NoiseState) (s n C i : ℕ),
       i < n → ∃ g, (noiseProcess P rng st s n C).rows.get? i
           = some (noiseRow P rng ((s + i) * C) g C)) := by
  constructor
  · intro P st events n C row hrow i j hi hj
    obtain ⟨v, rfl⟩ := processLoop_rows_replicate P C n 0 st events.head?
      events.tail row hrow
    simp [List.get_eq_getElem, List.getElem_replicate]
  · intro P rng st s n C i hi
    exact noiseProcess_rows_get P rng C n s st i hi

/-- Witness for C2 at concrete inputs: a one-sample two-channel Tone block
(whose single row is [0, 0]) and a one-sample two-channel Noise block. -/
theorem C2_channel_fanout_witness :
    ([(0 : ℚ), 0]).get ⟨0, by norm_num⟩ = ([(0 : ℚ), 0]).get ⟨1, by norm_num⟩ ∧
    (∃ g, (noiseProcess onePrims (fun _ => 1/2) defaultNoise 0 1 2).rows.get? 0
        = some (noiseRow onePrims (fun _ => 1/2) ((0 + 0) * 2) g 2)) :=
  ⟨C2_channel_fanout.1 idPrims defaultSynth [] 1 2 [0, 0]
      (by norm_num [process, processLoop, drainEvents, calculate_sin,
        Smoother.next, defaultSynth, Smoother.new, idPrims, List.replicate])
      0 1 (by norm_num) (by norm_num),
   C2_channel_fanout.2 onePrims (fun _ => 1/2) defaultNoise 0 1 2 0
      (by norm_num)⟩

lemma noiseProcess_mem (P : AudioPrims) (rng : ℕ → ℚ) (C : ℕ) :
    ∀ (n s : ℕ) (st : NoiseState),
      ∀ row ∈ (noiseProcess P rng st s n C).rows,
        ∃ base g, row = noiseRow P rng base g C
  | 0, s, st => by
      intro row hrow
      simp [noiseProcess] at hrow
  | n + 1, s, st => by
      intro row hrow
      simp only [noiseProcess] at hrow
      rcases List.mem_cons.1 hrow with hq | hq
      · exact ⟨s * C, st.gainParam.next.1, hq⟩
      · exact noiseProcess_mem P rng C n (s + 1) _ row hq

/-- C8: every output sample value of the Noise Engine equals
`(r - 0.5) * 2 * linear_gain(gain_db)` for one draw `r` of the random stream
and the gain value drawn at its sample, and — when the linear gain is
positive, as the exponential dB conversion always is — lies in
`[-linear_gain, linear_gain)`, i.e. in [-1,1) scaled by the linear gain. -/
theorem C8_noise_bounds (P : AudioPrims) (rng : ℕ → ℚ) (st : NoiseState)
    (s n C : ℕ) (hr : ∀ k, 0 ≤ rng k ∧ rng k < 1) :
    ∀ row ∈ (noiseProcess P rng st s n C).rows, ∀ v ∈ row,
      ∃ r gdb, (0 ≤ r ∧ r < 1) ∧ v = (r - 1/2) * 2 * P.dbToGain gdb ∧
        (0 < P.dbToGain gdb →
          -P.dbToGain gdb ≤ v ∧ v < P.dbToGain gdb) := by
  intro row hrow v hv
  obtain ⟨base, g, rfl⟩ := noiseProcess_mem P rng C n s st row hrow
  simp only [noiseRow, List.mem_map, List.mem_range] at hv
  obtain ⟨c, _, rfl⟩ := hv
  refine ⟨rng (base + c), g, hr _, rfl, fun hG => ?_⟩
  obtain ⟨h0, h1⟩ := hr (base + c)
  constructor <;> nlinarith

/-- Witness for C8 at concrete inputs: the single sample of a one-sample,
one-channel block with the constant random stream 1/2 (value 0). -/
theorem C8_noise_bounds_witness :
    ∃ r gdb, (0 ≤ r ∧ r < 1) ∧
      (0 : ℚ) = (r - 1/2) * 2 * onePrims.dbToGain gdb ∧
      (0 < onePrims.dbToGain gdb →
        -onePrims.dbToGain gdb ≤ (0 : ℚ) ∧ (0 : ℚ) < onePrims.dbToGain gdb) :=
  C8_noise_bounds onePrims (fun _ => 1/2) defaultNoise 0 1 1
    (fun _ => by norm_num) [0]
    (by norm_num [noiseProcess, noiseRow, defaultNoise, Smoother.new,
      Smoother.next, onePrims, List.range_succ])
    0 (by norm_num)

/-- The pending-event queue as the drain loop sees it: the event currently
held in `next_event` (if any) in front of the events still queued in the
context. -/
def pend : Option NoteEvent → List NoteEvent → List NoteEvent
  | none, rest => rest
  | some e, rest => e :: rest


/-- The Boolean test of the drain loop's continue condition at sample `s`
(the negation of the source's `event.timing() > sample_id` break test). -/
def timeLE (s : ℕ) : NoteEvent → Bool := fun e => decide (e.timing ≤ s)

/-- Boolean test for an event being timed exactly at sample `t`. -/
def timeEQ (t : ℕ) : NoteEvent → Bool := fun e => decide (e.timing = t)

lemma timeLE_true {s : ℕ} {e : NoteEvent} (h : e.timing ≤ s) :
    timeLE s e = true := by
  simp only [timeLE, decide_eq_true_eq]
  omega

lemma timeLE_false {s : ℕ} {e : NoteEvent} (h : s < e.timing) :
    ¬ timeLE s e = true := by
  simp only [timeLE, decide_eq_true_eq]
  omega

lemma timeEQ_true {t : ℕ} {e : NoteEvent} (h : e.timing = t) :
    timeEQ t e = true := by
  simp only [timeEQ, decide_eq_true_eq]
  omega

lemma timeEQ_false {t : ℕ} {e : NoteEvent} (h : ¬ e.timing = t) :
    ¬ timeEQ t e = true := by
  simp only [timeEQ, decide_eq_true_eq]
  omega

lemma drainEvents_spec (P : AudioPrims) (s : ℕ) :
    ∀ (rest : List NoteEvent) (st : DevFestSynth) (ev : Option NoteEvent),
      (ev = none → rest = []) →
      (drainEvents P s st ev rest).applied
          = (pend ev rest).takeWhile (timeLE s) ∧
      pend (drainEvents P s st ev rest).nextEv
          (drainEvents P s st ev rest).rest
          = (pend ev rest).dropWhile (timeLE s) ∧
      ((drainEvents P s st ev rest).nextEv = none →
        (drainEvents P s st ev rest).rest = []) ∧
      (drainEvents P s st ev rest).state.useMidi = st.useMidi
  | rest, st, none => by
      intro h
      have hr := h rfl
      subst hr
      simp [drainEvents, pend]
  | [], st, some e => by
      intro _
      by_cases hts : s < e.timing
      · rw [drainEvents, if_pos hts]
        refine ⟨?_, ?_, fun hh => Option.noConfusion hh, rfl⟩
        · show ([] : List NoteEvent) = List.takeWhile (timeLE s) (e :: [])
          rw [List.takeWhile_cons_of_neg (timeLE_false hts)]
        · show e :: [] = List.dropWhile (timeLE s) (e :: [])
          rw [List.dropWhile_cons_of_neg (timeLE_false hts)]
      · have hts2 : e.timing ≤ s := by omega
        rw [drainEvents, if_neg hts]
        refine ⟨?_, ?_, fun _ => rfl, applyEvent_useMidi P st e⟩
        · show [e] = List.takeWhile (timeLE s) (e :: [])
          rw [List.takeWhile_cons_of_pos (timeLE_true hts2)]
          rfl
        · show ([] : List NoteEvent) = List.dropWhile (timeLE s) (e :: [])
          rw [List.dropWhile_cons_of_pos (timeLE_true hts2)]
          rfl
  | e2 :: rest2, st, some e => by
      intro _
      by_cases hts : s < e.timing
      · rw [drainEvents, if_pos hts]
        refine ⟨?_, ?_, fun hh => Option.noConfusion hh, rfl⟩
        · show ([] : List NoteEvent)
              = List.takeWhile (timeLE s) (e :: e2 :: rest2)
          rw [List.takeWhile_cons_of_neg (timeLE_false hts)]
        · show e :: e2 :: rest2
              = List.dropWhile (timeLE s) (e :: e2 :: rest2)
          rw [List.dropWhile_cons_of_neg (timeLE_false hts)]
      · have hts2 : e.timing ≤ s := by omega
        obtain ⟨ih1, ih2, ih3, ih4⟩ :=
          drainEvents_spec P s rest2 (applyEvent P st e) (some e2)
            (fun hh => Option.noConfusion hh)
        rw [drainEvents, if_neg hts]
        refine ⟨?_, ?_, ih3, ?_⟩
        · show e :: (drainEvents P s (applyEvent P st e) (some e2)
              rest2).applied
              = List.takeWhile (timeLE s) (e :: e2 :: rest2)
          rw [List.takeWhile_cons_of_pos (timeLE_true hts2), ih1]
          rfl
        · show pend
              (drainEvents P s (applyEvent P st e) (some e2) rest2).nextEv
              (drainEvents P s (applyEvent P st e) (some e2) rest2).rest
              = List.dropWhile (timeLE s) (e :: e2 :: rest2)
          rw [List.dropWhile_cons_of_pos (timeLE_true hts2), ih2]
          rfl
        · show (drainEvents P s (applyEvent P st e) (some e2)
              rest2).state.useMidi = st.useMidi
          rw [ih4, applyEvent_useMidi]

lemma sorted_takeWhile_eq_filter (s : ℕ) :
    ∀ l : List NoteEvent,
      List.Pairwise (fun a b => a.timing ≤ b.timing) l →
      (∀ e ∈ l, s ≤ e.timing) →
      l.takeWhile (timeLE s) = l.filter (timeEQ s)
  | [], _, _ => rfl
  | a :: l, hp, hlb => by
      rcases List.pairwise_cons.1 hp with ⟨ha, hp2⟩
      by_cases hats : a.timing ≤ s
      · have heq : a.timing = s := le_antisymm hats (hlb a (.head l))
        rw [List.takeWhile_cons_of_pos (timeLE_true hats),
          List.filter_cons_of_pos (timeEQ_true heq),
          sorted_takeWhile_eq_filter s l hp2 (fun e he => hlb e (.tail a he))]
      · rw [List.takeWhile_cons_of_neg (timeLE_false (by omega)),
          List.filter_cons_of_neg (timeEQ_false (by omega))]
        symm
        rw [List.filter_eq_nil_iff]
        intro e he
        have h2 := ha e he
        simp only [timeEQ, decide_eq_true_eq]
        omega

lemma sorted_dropWhile_lb (s : ℕ) :
    ∀ l : List NoteEvent,
      List.Pairwise (fun a b => a.timing ≤ b.timing) l →
      ∀ e ∈ l.dropWhile (timeLE s), s + 1 ≤ e.timing
  | [], _ => by simp
  | a :: l, hp => by
      rcases List.pairwise_cons.1 hp with ⟨ha, hp2⟩
      by_cases hats : a.timing ≤ s
      · rw [List.dropWhile_cons_of_pos (timeLE_true hats)]
        exact sorted_dropWhile_lb s l hp2
      · rw [List.dropWhile_cons_of_neg (timeLE_false (by omega))]
        intro e he
        rcases List.mem_cons.1 he with rfl | he2
        · omega
        · have := ha e he2
          omega

lemma filter_dropWhile_high (s t : ℕ) (hst : s < t) :
    ∀ l : List NoteEvent,
      (l.dropWhile (timeLE s)).filter (timeEQ t) = l.filter (timeEQ t)
  | [] => rfl
  | a :: l => by
      by_cases hats : a.timing ≤ s
      · rw [List.dropWhile_cons_of_pos (timeLE_true hats),
          filter_dropWhile_high s t hst l,
          List.filter_cons_of_neg (timeEQ_false (by omega))]
      · rw [List.dropWhile_cons_of_neg (timeLE_false (by omega))]

lemma processLoop_applied (P : AudioPrims) (C : ℕ) :
    ∀ (n s : ℕ) (st : DevFestSynth) (ev : Option NoteEvent)
      (rest : List NoteEvent),
      st.useMidi = true → (ev = none → rest = []) →
      List.Pairwise (fun a b => a.timing ≤ b.timing) (pend ev rest) →
      (∀ e ∈ pend ev rest, s ≤ e.timing) →
      ∀ i, i < n →
        (processLoop P C st ev rest s n).applied.get? i
          = some ((pend ev rest).filter (timeEQ (s + i)))
  | 0, s, st, ev, rest, _, _, _, _, i, hi => absurd hi (Nat.not_lt_zero i)
  | n + 1, s, st, ev, rest, hm, hne, hp, hlb, i, hi => by
      obtain ⟨hap, hpend, hinv, humid⟩ :=
        drainEvents_spec P s rest { st with gainParam := st.gainParam.next.2 }
          ev hne
      simp only [processLoop]
      rw [if_pos hm]
      cases i with
      | zero =>
          simp only [List.get?_cons_zero]
          rw [hap, Nat.add_zero,
            sorted_takeWhile_eq_filter s (pend ev rest) hp hlb]
      | succ i =>
          simp only [List.get?_cons_succ]
          refine (processLoop_applied P C n (s + 1) _ _ _ ?_ hinv ?_ ?_ i
            (Nat.lt_of_succ_lt_succ hi)).trans ?_
          · simp only [calculate_sin_useMidi]
            rw [humid]
            exact hm
          · rw [hpend]
            exact hp.sublist (List.dropWhile_sublist _)
          · rw [hpend]
            exact sorted_dropWhile_lb s (pend ev rest) hp
          · rw [hpend, filter_dropWhile_high s (s + 1 + i) (by omega)
              (pend ev rest)]
            have harith : s + 1 + i = s + (i + 1) := by omega
            rw [harith]

/-- C6: event timing within a block.  With use_midi true and the block's
events sorted by non-decreasing sample offset (the host's precondition), the
events applied before computing the sample at index `s` are exactly the
pending events whose offset equals `s`, in queue order; every event with a
later offset is deferred to its own sample index (and an event offset at or
beyond the block length is never applied). -/
theorem C6_event_timing (P : AudioPrims) (st : DevFestSynth)
    (events : List NoteEvent) (N C : ℕ) (hm : st.useMidi = true)
    (hs : List.Pairwise (fun a b => a.timing ≤ b.timing) events) :
    ∀ i, i < N →
      (process P st events N C).applied.get? i
        = some (events.filter (timeEQ i)) := by
  intro i hi
  have hpend : pend events.head? events.tail = events := by
    cases events <;> rfl
  have h := processLoop_applied P C N 0 st events.head? events.tail hm
    (by cases events <;> simp) (by rw [hpend]; exact hs)
    (by intro e _; exact Nat.zero_le _) i hi
  rw [hpend] at h
  rw [process, h, Nat.zero_add]

/-- Witness for C6 at concrete inputs: two NoteOns at offsets 0 and 1 in a
two-sample block; the event applied at sample 1 is exactly the second. -/
theorem C6_event_timing_witness :
    (process idPrims defaultSynth
        [NoteEvent.noteOn 0 60 1, NoteEvent.noteOn 1 64 1] 2 1).applied.get? 1
      = some [NoteEvent.noteOn 1 64 1] := by
  have h := C6_event_timing idPrims defaultSynth
    [NoteEvent.noteOn 0 60 1, NoteEvent.noteOn 1 64 1] 2 1 rfl
    (by simp [NoteEvent.timing]) 1 (by norm_num)
  rw [h]
  rfl
